import Mathlib

/-!
# Verification of the `bevy_atomic_save` snapshot lifecycle

A shallow embedding of the save/load machinery of the `bevy_atomic_save`
crate (`src/lib.rs`, `src/plugin.rs`, `src/save.rs`, `src/load.rs`), together
with proofs of the specification claims about it.

The entity store (`bevy::World`) is modelled as a list of entity records, a
monotone fresh-identity counter, plus the two resources the crate touches
(`Request` and `Loaded`).  File and serializer interaction is modelled by
outcome parameters (the byte stream and `ron`/scene (de)serializers are
external collaborators of the crate).
-/

namespace BevyAtomicSave

/-- `bevy::Entity`: an index plus a generation. -/
structure Entity where
  index : Nat
  generation : Nat
deriving DecidableEq

/-- An ordinary (non-marker) component value attached to an entity.
`typeName` is the component type's durable identifier; `registered`
records whether the type is in the app's type registry (and hence
serializable); `value` is an opaque payload. -/
structure Component where
  typeName : String
  registered : Bool
  value : Nat
deriving DecidableEq

/-- One live entity of the store: its identity, whether it carries the
`Save` marker component, whether it carries the `Unload` marker component,
its optional hierarchy parent, and its ordinary components. -/
structure EntityRecord where
  id : Entity
  save : Bool
  unload : Bool
  parent : Option Entity
  components : List Component
deriving DecidableEq

/-- `SaveMode` from `lib.rs`. -/
inductive SaveMode
  | Filtered
  | Dump
deriving DecidableEq

/-- The `Request` resource from `lib.rs`: `Save { path, mode }` or `Load { path }`. -/
inductive Request
  | SaveReq (path : String) (mode : SaveMode)
  | LoadReq (path : String)
deriving DecidableEq

/-- `Request::should_save` (`lib.rs`). -/
def Request.should_save : Request → Bool
  | .SaveReq _ _ => true
  | .LoadReq _ => false

/-- `Request::should_load` (`lib.rs`). -/
def Request.should_load : Request → Bool
  | .SaveReq _ _ => false
  | .LoadReq _ => true

/-- The `Loaded` resource (`load.rs`): a map from previously saved entity
index (`u32`) to the freshly spawned entity, modelled as an association
list with distinct keys. -/
structure Loaded where
  map : List (Nat × Entity)
deriving DecidableEq

/-- `Loaded::entity` (`load.rs`): `self.0.get(&entity.index()).copied()`.
The lookup keys on `entity.index()` only. -/
def Loaded.entity (l : Loaded) (e : Entity) : Option Entity :=
  (l.map.find? (fun p => p.1 = e.index)).map (·.2)

/-- One entity of a `DynamicScene` (`bevy` scene): the saved entity's raw
index plus its serialized components. -/
structure SceneEntity where
  oldIndex : Nat
  components : List Component
deriving DecidableEq

/-- A `DynamicScene`: a detached, serializable sequence of scene entities. -/
structure DynamicScene where
  entities : List SceneEntity
deriving DecidableEq

/-- The entity store.  `nextFree` models bevy's guarantee that a freshly
spawned entity identity differs from every identity previously handed out
(bevy reuses indices but bumps generations; we model the combined identity
as a monotone counter).  `request` and `loaded` are the two singleton
resources touched by the crate; a bevy resource slot holds at most one
value of its type, so each is an `Option`. -/
structure World where
  entities : List EntityRecord
  nextFree : Nat
  request : Option Request
  loaded : Option Loaded
deriving DecidableEq

/-- Wellformedness of a store: entity identities are distinct and every
identity was allocated below the fresh counter. -/
def World.WF (w : World) : Prop :=
  (w.entities.map (·.id)).Nodup ∧ ∀ r ∈ w.entities, r.id.index < w.nextFree

instance (w : World) : Decidable w.WF := by
  unfold World.WF; infer_instance

/-- `should_save` run criteria (`save.rs`): true iff a `Request` resource is
present and it is a save request. -/
def shouldSave (w : World) : Bool :=
  match w.request with
  | some r => r.should_save
  | none => false

/-- `should_load` run criteria (`load.rs`): true iff a `Request` resource is
present and it is a load request. -/
def shouldLoad (w : World) : Bool :=
  match w.request with
  | some r => r.should_load
  | none => false

/-- `SaveWorld::save` (`lib.rs`): `insert_resource(Request::Save { path, mode: Filtered })`.
Inserting a resource overwrites any previous value of the same type. -/
def SaveWorld.save (w : World) (path : String) : World :=
  { w with request := some (.SaveReq path .Filtered) }

/-- `SaveWorld::dump` (`lib.rs`): `insert_resource(Request::Save { path, mode: Dump })`. -/
def SaveWorld.dump (w : World) (path : String) : World :=
  { w with request := some (.SaveReq path .Dump) }

/-- `LoadWorld::load` (`lib.rs`): `insert_resource(Request::Load { path })`. -/
def LoadWorld.load (w : World) (path : String) : World :=
  { w with request := some (.LoadReq path) }

/-! ## Stage layout (`plugin.rs`)

`SavePlugin::build` arranges the schedule's stages.  A bevy schedule is an
ordered list of stage labels; `add_stage_after l target s` inserts `s`
right after `target`, `add_stage_before` right before. -/

/-- The stage labels involved: bevy's five `CoreStage`s plus the three
`SaveStage`s added by the plugin. -/
inductive StageLabel
  | coreFirst
  | corePreUpdate
  | coreUpdate
  | corePostUpdate
  | coreLast
  | stageSave
  | stageLoad
  | stagePostLoad
deriving DecidableEq

/-- `App::add_stage_after`: insert `s` immediately after `target`. -/
def add_stage_after (stages : List StageLabel) (target s : StageLabel) : List StageLabel :=
  match stages with
  | [] => []
  | t :: rest =>
    if t = target then t :: s :: rest else t :: add_stage_after rest target s

/-- `App::add_stage_before`: insert `s` immediately before `target`. -/
def add_stage_before (stages : List StageLabel) (target s : StageLabel) : List StageLabel :=
  match stages with
  | [] => []
  | t :: rest =>
    if t = target then s :: t :: rest else t :: add_stage_before rest target s

/-- Bevy's default per-tick stage order (`CoreStage`). -/
def coreStages : List StageLabel :=
  [.coreFirst, .corePreUpdate, .coreUpdate, .corePostUpdate, .coreLast]

/-- `SavePlugin::build` (`plugin.rs`): `SaveStage::Save` is added after
`CoreStage::Last`, `SaveStage::Load` before `CoreStage::PreUpdate`, and
`SaveStage::PostLoad` after `SaveStage::Load`. -/
def buildStages : List StageLabel :=
  add_stage_after
    (add_stage_before
      (add_stage_after coreStages .coreLast .stageSave)
      .corePreUpdate .stageLoad)
    .stageLoad .stagePostLoad

/-! ## Save executor (`save.rs`) -/

/-- `save_world` (`save.rs`): extract the given entities from the store into
a `DynamicScene` via `DynamicSceneBuilder::extract_entities`.  For each
requested entity that is alive, the scene records its raw index and exactly
those of its components whose type is registered as serializable.  The
store is not modified (the builder only reads). -/
def save_world (w : World) (entities : List Entity) : DynamicScene :=
  ⟨entities.filterMap (fun e =>
    (w.entities.find? (fun r => r.id = e)).map (fun r =>
      ⟨r.id.index, r.components.filter (·.registered)⟩))⟩

/-- Outcome of the I/O performed by the save system (serializer and file
system are external collaborators). -/
inductive SaveIo
  | ok
  | serializeError
  | createError
  | writeError
deriving DecidableEq

/-- Observable result of one run of the `save` system. -/
inductive SaveOutcome
  | written (scene : DynamicScene)
  | loggedError (msg : String)
  | skipped
deriving DecidableEq

/-- The entity-set resolution of the `save` system (`save.rs`):
`Filtered` collects the identities of all entities carrying the `Save`
marker (the `query_filtered::<Entity, With<Save>>` query); `Dump` collects
every entity's identity (`world.iter_entities()`). -/
def selectEntities (es : List EntityRecord) : SaveMode → List Entity
  | .Filtered => (es.filter (·.save)).map (·.id)
  | .Dump => es.map (·.id)

/-- The `save` system (`save.rs`).  `world.remove_resource::<Request>()`
removes the request unconditionally; on a save request the entity set is
resolved per mode via `selectEntities`, extracted via `save_world`, then
serialized and written.  Serialization, file-creation and write failures
are logged errors. -/
def save (w : World) (io : SaveIo) : World × SaveOutcome :=
  match w.request with
  | some (.SaveReq _path mode) =>
    let w' : World := { w with request := none }
    let entities : List Entity := selectEntities w'.entities mode
    let scene := save_world w' entities
    match io with
    | .ok => (w', .written scene)
    | .serializeError => (w', .loggedError "serialization failed")
    | .createError => (w', .loggedError "file creation failed")
    | .writeError => (w', .loggedError "save failed")
  | some (.LoadReq _) => ({ w with request := none }, .skipped)
  | none => (w, .skipped)

/-! ## Load executor (`load.rs`) -/

/-- Look up the hierarchy parent of entity `x` in the store.  Returns
`none` when `x` has no record or its record has no parent. -/
def parentOf (es : List EntityRecord) (x : Entity) : Option Entity :=
  match es.find? (fun r => r.id = x) with
  | some r => r.parent
  | none => none

/-- The chain of ancestors of `x`, obtained by iterating `parentOf` at most
`n` times. -/
def ancestorChain (es : List EntityRecord) (x : Entity) : Nat → List Entity
  | 0 => []
  | n + 1 =>
    match parentOf es x with
    | none => []
    | some p => p :: ancestorChain es p n

/-- `x` is a (strict) descendant of `e` in the store's parent/child
hierarchy: `e` occurs in `x`'s ancestor chain.  A fuel of `es.length + 1`
iterations suffices to reach every reachable ancestor. -/
def isDesc (es : List EntityRecord) (x e : Entity) : Bool :=
  (ancestorChain es x (es.length + 1)).contains e

/-- `EntityMut::despawn_recursive`: remove the entity `e` and all of its
descendants from the store. -/
def despawn_recursive (es : List EntityRecord) (e : Entity) : List EntityRecord :=
  es.filter (fun r => !(r.id == e || isDesc es r.id e))

/-- Is an entity with identity `e` currently alive in the store?
(`World::get_entity_mut` returns `Some` exactly in this case.) -/
def alive (es : List EntityRecord) (e : Entity) : Bool :=
  es.any (fun r => r.id == e)

/-- Does a record carry the `Save` or `Unload` marker
(the `Or<(With<Save>, With<Unload>)>` query filter)? -/
def markedB (r : EntityRecord) : Bool :=
  r.save || r.unload

/-- The body of `unload_world`'s loop: re-check that the entity is still
alive (it may have been despawned recursively as a descendant of an earlier
entity), and if so despawn it recursively; otherwise do nothing. -/
def unloadStep (cur : List EntityRecord) (e : Entity) : List EntityRecord :=
  if alive cur e then despawn_recursive cur e else cur

/-- `unload_world` (`load.rs`): collect every entity carrying `Save` or
`Unload`, then despawn each recursively, skipping entities already gone. -/
def unload_world (es : List EntityRecord) : List EntityRecord :=
  ((es.filter markedB).map (·.id)).foldl unloadStep es

/-- `DynamicScene::write_to_world` (bevy collaborator, called by
`load_world`): scene entities are processed in order; the entity map is
keyed by the scene entity's raw index (as an `Entity` with generation 0)
and maps it, on first encounter, to a freshly spawned entity.  Components
whose type is registered are written onto the mapped entity; the first
unregistered component type aborts the write with an error, leaving the
partial entities and the partial map in place.  Returns the new store, the
new fresh counter, the accumulated entity map, and whether the write
succeeded. -/
def write_to_world (es : List EntityRecord) (next : Nat)
    (emap : List (Entity × Entity)) :
    List SceneEntity → List EntityRecord × Nat × List (Entity × Entity) × Bool
  | [] => (es, next, emap, true)
  | se :: rest =>
    let old : Entity := ⟨se.oldIndex, 0⟩
    let kept := se.components.takeWhile (·.registered)
    let allOk := se.components.all (·.registered)
    match emap.find? (fun p => p.1 = old) with
    | some p =>
      let es' := es.map (fun r =>
        if r.id = p.2 then
          { r with components :=
              r.components.filter (fun c => !(kept.any (·.typeName == c.typeName))) ++ kept }
        else r)
      if allOk then write_to_world es' next emap rest
      else (es', next, emap, false)
    | none =>
      let r : EntityRecord := ⟨⟨next, 0⟩, false, false, none, kept⟩
      let es' := es ++ [r]
      let emap' := emap ++ [(old, r.id)]
      if allOk then write_to_world es' (next + 1) emap' rest
      else (es', next + 1, emap', false)

/-- Insert the `Save` marker component on entity `e`
(`world.entity_mut(entity).insert(Save)`). -/
def tagSave (es : List EntityRecord) (e : Entity) : List EntityRecord :=
  es.map (fun r => if r.id = e then { r with save := true } else r)

/-- `load_world` (`load.rs`): unload the world, write the scene into it
(a write failure is only logged; execution continues), then for every
`(old, new)` pair of the entity map record `old.index() ↦ new` in a fresh
`Loaded` map and insert the `Save` marker on `new`; finally insert the
`Loaded` resource (overwriting any previous one). -/
def load_world (w : World) (scene : DynamicScene) : World :=
  let es1 := unload_world w.entities
  let res := write_to_world es1 w.nextFree [] scene.entities
  let es2 := res.1
  let next2 := res.2.1
  let emap := res.2.2.1
  let loadedMap := emap.map (fun p => (p.1.index, p.2))
  let es3 := emap.foldl (fun es p => tagSave es p.2) es2
  { entities := es3, nextFree := next2, request := w.request,
    loaded := some ⟨loadedMap⟩ }

/-- Outcome of the file read and scene parse performed by the `load`
system (file system and `ron`/scene deserializer are external
collaborators).  `openError` is a `File::open` failure; `parseError`
covers a deserializer-creation or deserialization failure (including the
read-failure path, which logs and then fails to parse the partial
buffer). -/
inductive ReadOutcome
  | openError
  | parseError
  | parsed (scene : DynamicScene)
deriving DecidableEq

/-- The `load` system (`load.rs`): on a load request, open and read the
file at `path` and parse it into a scene.  Any open/read/parse failure is
logged and the system returns without touching the store; only on success
is `load_world` called.  The `Request` resource is read, not removed. -/
def load (w : World) (rd : ReadOutcome) : World :=
  match w.request with
  | some (.LoadReq _path) =>
    match rd with
    | .openError => w
    | .parseError => w
    | .parsed scene => load_world w scene
  | _ => w

/-- `finish_load` (`load.rs`): remove the `Request` and `Loaded`
resources (a system of `SaveStage::PostLoad`). -/
def finish_load (w : World) : World :=
  { w with request := none, loaded := none }

/-- `FromLoaded for Entity` (`load.rs`):
`*self = loaded.entity(*self).expect("loaded entity is not valid")`.
The `expect` panic is modelled as `none`. -/
def Entity.from_loaded (e : Entity) (l : Loaded) : Option Entity :=
  l.entity e

/-- `FromLoaded for Option<Entity>` (`load.rs`): update the reference if
present, leave `None` untouched. -/
def Option.from_loaded (o : Option Entity) (l : Loaded) : Option (Option Entity) :=
  match o with
  | none => some none
  | some e => (e.from_loaded l).map some

/-- The system added by `RegisterLoaded::register_loaded` (`load.rs`),
applied to all instances of an entity-reference component: call
`from_loaded` on each; the first missing mapping panics the system
(modelled as `none`), otherwise every reference is rewritten. -/
def register_loaded_run (l : Loaded) : List Entity → Option (List Entity)
  | [] => some []
  | e :: rest =>
    match e.from_loaded l with
    | none => none
    | some n =>
      match register_loaded_run l rest with
      | none => none
      | some ns => some (n :: ns)

/-! ## Proof layer: parent paths and the unload loop -/

/-- The identities of the store's records. -/
def ids (es : List EntityRecord) : List Entity := es.map (·.id)

/-- `IsPath es x l e`: following parent links from `x` through the
intermediate entities `l` ends at `e`. -/
def IsPath (es : List EntityRecord) : Entity → List Entity → Entity → Prop
  | x, [], e => parentOf es x = some e
  | x, p :: l, e => parentOf es x = some p ∧ IsPath es p l e

/-- An entity is doomed by the list `ms` of entities to despawn when it is
one of them or a descendant of one of them. -/
def doomedBy (es : List EntityRecord) (ms : List Entity) (x : Entity) : Bool :=
  ms.any (fun m => x == m || isDesc es x m)

/-- An entity is doomed when it is marked `Save`/`Unload` or a descendant
of a marked entity. -/
def doomed (es : List EntityRecord) (x : Entity) : Bool :=
  doomedBy es ((es.filter markedB).map (·.id)) x

theorem parentOf_some_mem {es : List EntityRecord} {x y : Entity}
    (h : parentOf es x = some y) : x ∈ ids es := by
  unfold parentOf at h
  cases hf : es.find? (fun r => decide (r.id = x)) with
  | none => rw [hf] at h; exact absurd h (by simp)
  | some r =>
    have hr : r ∈ es := List.mem_of_find?_eq_some hf
    have hp : r.id = x := by simpa using List.find?_some hf
    exact List.mem_map.mpr ⟨r, hr, hp⟩

theorem IsPath.src_mem {es : List EntityRecord} {x : Entity} {l : List Entity}
    {e : Entity} (h : IsPath es x l e) : x ∈ ids es := by
  cases l with
  | nil => exact parentOf_some_mem h
  | cons p l => exact parentOf_some_mem h.1

theorem IsPath.mem_ids {es : List EntityRecord} {x : Entity} {l : List Entity}
    {e : Entity} (h : IsPath es x l e) : ∀ p ∈ l, p ∈ ids es := by
  induction l generalizing x with
  | nil => intro p hp; cases hp
  | cons q l ih =>
    intro p hp
    rcases List.mem_cons.mp hp with rfl | hp
    · exact h.2.src_mem
    · exact ih h.2 p hp

theorem mem_chain_of_path {es : List EntityRecord} {e : Entity} :
    ∀ {l : List Entity} {x : Entity} {n : Nat}, IsPath es x l e →
      l.length + 1 ≤ n → e ∈ ancestorChain es x n := by
  intro l
  induction l with
  | nil =>
    intro x n h hn
    match n, hn with
    | m + 1, _ =>
      have hx : parentOf es x = some e := h
      simp only [ancestorChain, hx]
      exact List.mem_cons_self _ _
  | cons p l ih =>
    intro x n h hn
    obtain ⟨h1, h2⟩ := h
    match n, hn with
    | m + 1, hn =>
      simp only [ancestorChain, h1]
      exact List.mem_cons_of_mem _ (ih h2 (by simpa using Nat.lt_succ_iff.mp hn))

theorem path_of_mem_chain {es : List EntityRecord} {e : Entity} :
    ∀ {n : Nat} {x : Entity}, e ∈ ancestorChain es x n →
      ∃ l, IsPath es x l e ∧ l.length + 1 ≤ n := by
  intro n
  induction n with
  | zero => intro x h; simp [ancestorChain] at h
  | succ m ih =>
    intro x h
    simp only [ancestorChain] at h
    cases hp : parentOf es x with
    | none => rw [hp] at h; simp at h
    | some p =>
      rw [hp] at h
      rcases List.mem_cons.mp h with rfl | h
      · exact ⟨[], hp, by simp⟩
      · obtain ⟨l, hl, hn⟩ := ih h
        exact ⟨p :: l, ⟨hp, hl⟩, by simpa using Nat.succ_le_succ hn⟩

theorem exists_dup_split {α : Type} {l : List α} (h : ¬ l.Nodup) :
    ∃ (a : List α) (d : α) (b c : List α), l = a ++ d :: b ++ d :: c := by
  induction l with
  | nil => exact absurd List.nodup_nil h
  | cons x t ih =>
    by_cases hx : x ∈ t
    · obtain ⟨b, c, rfl⟩ := List.append_of_mem hx
      exact ⟨[], x, b, c, rfl⟩
    · have ht : ¬ t.Nodup := fun hnd => h (List.nodup_cons.mpr ⟨hx, hnd⟩)
      obtain ⟨a, d, b, c, rfl⟩ := ih ht
      exact ⟨x :: a, d, b, c, rfl⟩

theorem isPath_append {es : List EntityRecord} {m e : Entity} :
    ∀ {u : List Entity} {x : Entity} {v : List Entity},
      IsPath es x (u ++ m :: v) e ↔ IsPath es x u m ∧ IsPath es m v e := by
  intro u
  induction u with
  | nil => intro x v; exact Iff.rfl
  | cons q u' ih =>
    intro x v
    constructor
    · rintro ⟨h1, h2⟩
      obtain ⟨ha, hb⟩ := ih.mp h2
      exact ⟨⟨h1, ha⟩, hb⟩
    · rintro ⟨⟨h1, ha⟩, hb⟩
      exact ⟨h1, ih.mpr ⟨ha, hb⟩⟩

theorem isPath_shorten {es : List EntityRecord} {x e : Entity} :
    ∀ (n : Nat) (l : List Entity), l.length ≤ n → IsPath es x l e →
      ∃ l', IsPath es x l' e ∧ l'.Nodup := by
  intro n
  induction n with
  | zero =>
    intro l hl h
    have h0 : l = [] := List.length_eq_zero.mp (Nat.le_zero.mp hl)
    subst h0
    exact ⟨[], h, List.nodup_nil⟩
  | succ m ih =>
    intro l hl h
    by_cases hnd : l.Nodup
    · exact ⟨l, h, hnd⟩
    · obtain ⟨a, d, b, c, rfl⟩ := exists_dup_split hnd
      have h' : IsPath es x ((a ++ d :: b) ++ d :: c) e := by
        simpa [List.append_assoc] using h
      obtain ⟨hxbd, hc⟩ := isPath_append.mp h'
      obtain ⟨hxa, _⟩ := isPath_append.mp hxbd
      have hcomb : IsPath es x (a ++ d :: c) e := isPath_append.mpr ⟨hxa, hc⟩
      refine ih (a ++ d :: c) ?_ hcomb
      simp only [List.length_append, List.length_cons] at hl ⊢
      omega

theorem nodup_path_length_le {es : List EntityRecord} {x e : Entity}
    {l : List Entity} (h : IsPath es x l e) (hnd : l.Nodup) :
    l.length ≤ es.length := by
  have hsub : l ⊆ ids es := fun p hp => h.mem_ids p hp
  have hlen := (List.subperm_of_subset hnd hsub).length_le
  simpa [ids] using hlen

theorem isDesc_of_path {es : List EntityRecord} {x e : Entity}
    {l : List Entity} (h : IsPath es x l e) : isDesc es x e = true := by
  obtain ⟨l', h', hnd⟩ := isPath_shorten l.length l le_rfl h
  have hb : l'.length + 1 ≤ es.length + 1 :=
    Nat.succ_le_succ (nodup_path_length_le h' hnd)
  have hm := mem_chain_of_path h' hb
  simpa [isDesc] using hm

theorem path_of_isDesc {es : List EntityRecord} {x e : Entity}
    (h : isDesc es x e = true) : ∃ l, IsPath es x l e := by
  have hm : e ∈ ancestorChain es x (es.length + 1) := by simpa [isDesc] using h
  obtain ⟨l, hl, _⟩ := path_of_mem_chain hm
  exact ⟨l, hl⟩

theorem nodup_inj {es : List EntityRecord} (hnd : (ids es).Nodup)
    {r₁ r₂ : EntityRecord} (h1 : r₁ ∈ es) (h2 : r₂ ∈ es) (he : r₁.id = r₂.id) :
    r₁ = r₂ :=
  List.inj_on_of_nodup_map hnd h1 h2 he

theorem parentOf_agree {es : List EntityRecord} (hnd : (ids es).Nodup)
    {P : EntityRecord → Bool} {x : Entity} (hx : x ∈ ids (es.filter P)) :
    parentOf (es.filter P) x = parentOf es x := by
  obtain ⟨r, hr, hrid⟩ := List.mem_map.mp hx
  have hsome1 : ((es.filter P).find? (fun s => decide (s.id = x))).isSome :=
    List.find?_isSome.mpr ⟨r, hr, by simp [hrid]⟩
  cases hf1 : (es.filter P).find? (fun s => decide (s.id = x)) with
  | none => rw [hf1] at hsome1; simp at hsome1
  | some r₁ =>
    have hr₁m : r₁ ∈ es := (List.mem_filter.mp (List.mem_of_find?_eq_some hf1)).1
    have hr₁id : r₁.id = x := by simpa using List.find?_some hf1
    have hsome2 : (es.find? (fun s => decide (s.id = x))).isSome :=
      List.find?_isSome.mpr ⟨r₁, hr₁m, by simp [hr₁id]⟩
    cases hf2 : es.find? (fun s => decide (s.id = x)) with
    | none => rw [hf2] at hsome2; simp at hsome2
    | some r₂ =>
      have hr12 : r₁ = r₂ := by
        have hr₂m : r₂ ∈ es := List.mem_of_find?_eq_some hf2
        have hr₂id : r₂.id = x := by simpa using List.find?_some hf2
        exact nodup_inj hnd hr₁m hr₂m (hr₁id.trans hr₂id.symm)
      unfold parentOf
      rw [hf1, hf2, hr12]

theorem isPath_filter_up {es : List EntityRecord} (hnd : (ids es).Nodup)
    {P : EntityRecord → Bool} :
    ∀ {l : List Entity} {x e : Entity}, IsPath (es.filter P) x l e →
      IsPath es x l e := by
  intro l
  induction l with
  | nil =>
    intro x e h
    exact ((parentOf_agree hnd (parentOf_some_mem h)).symm.trans h : _)
  | cons p l ih =>
    intro x e h
    obtain ⟨h1, h2⟩ := h
    exact ⟨(parentOf_agree hnd (parentOf_some_mem h1)).symm.trans h1, ih h2⟩

theorem doomedBy_of_parent {es : List EntityRecord} {ms : List Entity}
    {x p : Entity} (hp : parentOf es x = some p)
    (hd : doomedBy es ms p = true) : doomedBy es ms x = true := by
  simp only [doomedBy, List.any_eq_true] at hd ⊢
  obtain ⟨m, hm, hpm⟩ := hd
  refine ⟨m, hm, ?_⟩
  simp only [Bool.or_eq_true, beq_iff_eq] at hpm ⊢
  rcases hpm with rfl | hdesc
  · exact Or.inr (isDesc_of_path (l := []) hp)
  · obtain ⟨l, hl⟩ := path_of_isDesc hdesc
    exact Or.inr (isDesc_of_path (l := p :: l) ⟨hp, hl⟩)

theorem doomedBy_nil {es : List EntityRecord} {x : Entity} :
    doomedBy es [] x = false := by
  simp [doomedBy]

theorem doomedBy_append {es : List EntityRecord} {ms₁ ms₂ : List Entity}
    {x : Entity} :
    doomedBy es (ms₁ ++ ms₂) x = (doomedBy es ms₁ x || doomedBy es ms₂ x) := by
  simp [doomedBy, List.any_append]

theorem doomedBy_singleton {es : List EntityRecord} {e x : Entity} :
    doomedBy es [e] x = (x == e || isDesc es x e) := by
  simp [doomedBy]

theorem mem_ids_filter_of_not_doomed {es : List EntityRecord} {ms : List Entity}
    {x : Entity} (hx : doomedBy es ms x = false) (hxm : x ∈ ids es) :
    x ∈ ids (es.filter fun r => !doomedBy es ms r.id) := by
  obtain ⟨r, hr, hrid⟩ := List.mem_map.mp hxm
  refine List.mem_map.mpr ⟨r, List.mem_filter.mpr ⟨hr, ?_⟩, hrid⟩
  rw [hrid, hx]
  rfl

theorem isPath_filter_down {es : List EntityRecord} (hnd : (ids es).Nodup)
    {ms : List Entity} :
    ∀ {l : List Entity} {x e : Entity}, doomedBy es ms x = false → x ∈ ids es →
      IsPath es x l e →
      IsPath (es.filter fun r => !doomedBy es ms r.id) x l e := by
  intro l
  induction l with
  | nil =>
    intro x e hx hxm h
    exact ((parentOf_agree hnd (mem_ids_filter_of_not_doomed hx hxm)).trans h : _)
  | cons p l ih =>
    intro x e hx hxm h
    obtain ⟨h1, h2⟩ := h
    have hpd : doomedBy es ms p = false := by
      by_contra hc
      have hx' : doomedBy es ms x = true :=
        doomedBy_of_parent h1 (Bool.not_eq_false _ ▸ hc)
      rw [hx] at hx'
      exact Bool.false_ne_true hx'
    exact ⟨(parentOf_agree hnd (mem_ids_filter_of_not_doomed hx hxm)).trans h1,
      ih hpd h2.src_mem h2⟩

theorem isDesc_filter_eq {es : List EntityRecord} (hnd : (ids es).Nodup)
    {ms : List Entity} {x e : Entity} (hx : doomedBy es ms x = false)
    (hxm : x ∈ ids es) :
    isDesc (es.filter fun r => !doomedBy es ms r.id) x e = isDesc es x e := by
  by_cases h : isDesc es x e = true
  · obtain ⟨l, hl⟩ := path_of_isDesc h
    rw [h]
    exact isDesc_of_path (isPath_filter_down hnd hx hxm hl)
  · have h' : isDesc es x e = false := by simpa using h
    rw [h']
    by_contra hc
    obtain ⟨l, hl⟩ := path_of_isDesc (Bool.not_eq_false _ ▸ hc)
    have hup := isDesc_of_path (isPath_filter_up hnd hl)
    rw [h'] at hup
    exact Bool.false_ne_true hup

theorem doomedBy_absorb {es : List EntityRecord} {ms : List Entity}
    {e x : Entity} (hde : doomedBy es ms e = true)
    (hx : (x == e || isDesc es x e) = true) : doomedBy es ms x = true := by
  simp only [Bool.or_eq_true, beq_iff_eq] at hx
  rcases hx with rfl | hdesc
  · exact hde
  · simp only [doomedBy, List.any_eq_true] at hde ⊢
    obtain ⟨m, hm, hem⟩ := hde
    refine ⟨m, hm, ?_⟩
    simp only [Bool.or_eq_true, beq_iff_eq] at hem ⊢
    obtain ⟨l₁, hl₁⟩ := path_of_isDesc hdesc
    rcases hem with rfl | hem
    · exact Or.inr hdesc
    · obtain ⟨l₂, hl₂⟩ := path_of_isDesc hem
      exact Or.inr (isDesc_of_path (isPath_append.mpr ⟨hl₁, hl₂⟩))

theorem alive_filter_eq_false {es : List EntityRecord} {ms : List Entity}
    {e : Entity} (he : e ∈ ids es)
    (h : alive (es.filter fun r => !doomedBy es ms r.id) e = false) :
    doomedBy es ms e = true := by
  by_contra hc
  have hde : doomedBy es ms e = false := by simpa using hc
  obtain ⟨r, hr, hrid⟩ := List.mem_map.mp he
  have hrcur : r ∈ es.filter (fun r => !doomedBy es ms r.id) :=
    List.mem_filter.mpr ⟨hr, by rw [hrid, hde]; rfl⟩
  have halive : alive (es.filter fun r => !doomedBy es ms r.id) e = true := by
    simp only [alive, List.any_eq_true]
    exact ⟨r, hrcur, by simp [hrid]⟩
  rw [h] at halive
  exact Bool.false_ne_true halive

theorem unloadStep_filter {es : List EntityRecord} (hnd : (ids es).Nodup)
    {ms : List Entity} {e : Entity} (he : e ∈ ids es) :
    unloadStep (es.filter fun r => !doomedBy es ms r.id) e
      = es.filter fun r => !doomedBy es (ms ++ [e]) r.id := by
  cases halive : alive (es.filter fun r => !doomedBy es ms r.id) e with
  | false =>
    have hde : doomedBy es ms e = true := alive_filter_eq_false he halive
    have hcong : (es.filter fun r => !doomedBy es (ms ++ [e]) r.id)
        = es.filter fun r => !doomedBy es ms r.id := by
      apply List.filter_congr
      intro r _
      rw [doomedBy_append, doomedBy_singleton]
      cases hd : doomedBy es ms r.id with
      | true => rfl
      | false =>
        cases hxe : (r.id == e || isDesc es r.id e) with
        | false => rfl
        | true =>
          have := doomedBy_absorb hde hxe
          rw [hd] at this
          exact absurd this Bool.false_ne_true
    rw [hcong]
    simp [unloadStep, halive]
  | true =>
    have hstep : unloadStep (es.filter fun r => !doomedBy es ms r.id) e
        = despawn_recursive (es.filter fun r => !doomedBy es ms r.id) e := by
      simp [unloadStep, halive]
    rw [hstep]
    unfold despawn_recursive
    rw [List.filter_filter]
    apply List.filter_congr
    intro r hr
    rw [doomedBy_append, doomedBy_singleton]
    cases hd : doomedBy es ms r.id with
    | true => simp
    | false =>
      have hrm : r.id ∈ ids es := List.mem_map.mpr ⟨r, hr, rfl⟩
      rw [isDesc_filter_eq hnd hd hrm]
      simp

theorem foldl_unloadStep_filter {es : List EntityRecord} (hnd : (ids es).Nodup) :
    ∀ (ms₂ ms₁ : List Entity), (∀ e ∈ ms₂, e ∈ ids es) →
      ms₂.foldl unloadStep (es.filter fun r => !doomedBy es ms₁ r.id)
        = es.filter fun r => !doomedBy es (ms₁ ++ ms₂) r.id := by
  intro ms₂
  induction ms₂ with
  | nil => intro ms₁ _; simp
  | cons e ms₂ ih =>
    intro ms₁ hmem
    have hstep := @unloadStep_filter es hnd ms₁ e (hmem e (List.mem_cons_self _ _))
    calc (e :: ms₂).foldl unloadStep (es.filter fun r => !doomedBy es ms₁ r.id)
        = ms₂.foldl unloadStep
            (unloadStep (es.filter fun r => !doomedBy es ms₁ r.id) e) := rfl
      _ = ms₂.foldl unloadStep
            (es.filter fun r => !doomedBy es (ms₁ ++ [e]) r.id) := by rw [hstep]
      _ = es.filter fun r => !doomedBy es ((ms₁ ++ [e]) ++ ms₂) r.id :=
            ih (ms₁ ++ [e]) (fun x hx => hmem x (List.mem_cons_of_mem _ hx))
      _ = es.filter fun r => !doomedBy es (ms₁ ++ e :: ms₂) r.id := by
            rw [List.append_assoc]; rfl

/-- The unload loop removes exactly the marked entities and their
descendants: `unload_world` equals a filter of the original store by
non-doomedness. -/
theorem unload_world_eq_filter {es : List EntityRecord}
    (hnd : (ids es).Nodup) :
    unload_world es = es.filter fun r => !doomed es r.id := by
  have hes : es.filter (fun r => !doomedBy es [] r.id) = es := by
    apply List.filter_eq_self.mpr
    intro r _
    rw [doomedBy_nil]
    rfl
  have hsub : ∀ e ∈ (es.filter markedB).map (·.id), e ∈ ids es := by
    intro e hemem
    obtain ⟨r, hr, hrid⟩ := List.mem_map.mp hemem
    exact List.mem_map.mpr ⟨r, (List.mem_filter.mp hr).1, hrid⟩
  have h := foldl_unloadStep_filter hnd ((es.filter markedB).map (·.id)) [] hsub
  rw [hes] at h
  unfold unload_world doomed
  simpa using h

theorem doomed_of_marked {es : List EntityRecord} {r : EntityRecord}
    (hr : r ∈ es) (hm : markedB r = true) : doomed es r.id = true := by
  simp only [doomed, doomedBy, List.any_eq_true]
  exact ⟨r.id, List.mem_map.mpr ⟨r, List.mem_filter.mpr ⟨hr, hm⟩, rfl⟩,
    by simp⟩

theorem doomed_of_desc {es : List EntityRecord} {x : Entity} {m : EntityRecord}
    (hm : m ∈ es) (hmk : markedB m = true) (hd : isDesc es x m.id = true) :
    doomed es x = true := by
  simp only [doomed, doomedBy, List.any_eq_true]
  exact ⟨m.id, List.mem_map.mpr ⟨m, List.mem_filter.mpr ⟨hm, hmk⟩, rfl⟩,
    by simp [hd]⟩

theorem alive_unload_eq_false {es : List EntityRecord} {x : Entity}
    (hnd : (ids es).Nodup) (hdoom : doomed es x = true) :
    alive (unload_world es) x = false := by
  rw [unload_world_eq_filter hnd]
  unfold alive
  rw [List.any_eq_false]
  intro r' hr'
  obtain ⟨_, hkeep⟩ := List.mem_filter.mp hr'
  intro hbeq
  have hid : r'.id = x := by simpa using hbeq
  rw [hid, hdoom] at hkeep
  simp at hkeep

theorem not_doomed_mem_unload {es : List EntityRecord} {r : EntityRecord}
    (hnd : (ids es).Nodup) (hr : r ∈ es) (hd : doomed es r.id = false) :
    r ∈ unload_world es := by
  rw [unload_world_eq_filter hnd]
  exact List.mem_filter.mpr ⟨hr, by rw [hd]; rfl⟩

/-! ## Proof layer: scene writing and tagging -/

theorem alive_eq_ids {x : Entity} : ∀ {es : List EntityRecord},
    alive es x = (ids es).any (fun y => y == x) := by
  intro es
  induction es with
  | nil => rfl
  | cons r t ih =>
    show (r.id == x || alive t x) = (r.id == x || (ids t).any fun y => y == x)
    rw [ih]

theorem tagSave_ids {es : List EntityRecord} {e : Entity} :
    ids (tagSave es e) = ids es := by
  simp only [ids, tagSave, List.map_map]
  apply List.map_congr_left
  intro r _
  by_cases h : r.id = e <;> simp [h]

theorem tagSave_keeps {es : List EntityRecord} {e v : Entity}
    (h : ∃ r ∈ es, r.id = v ∧ r.save = true) :
    ∃ r ∈ tagSave es e, r.id = v ∧ r.save = true := by
  obtain ⟨r, hr, hid, hs⟩ := h
  by_cases he : r.id = e
  · exact ⟨{ r with save := true }, List.mem_map.mpr ⟨r, hr, by simp [he]⟩,
      hid, rfl⟩
  · exact ⟨r, List.mem_map.mpr ⟨r, hr, by simp [he]⟩, hid, hs⟩

theorem tagSave_sets {es : List EntityRecord} {v : Entity}
    (h : v ∈ ids es) : ∃ r ∈ tagSave es v, r.id = v ∧ r.save = true := by
  obtain ⟨r, hr, hid⟩ := List.mem_map.mp h
  exact ⟨{ r with save := true }, List.mem_map.mpr ⟨r, hr, by simp [hid]⟩,
    hid, rfl⟩

theorem tagFold_ids {v : Entity} :
    ∀ (ps : List (Entity × Entity)) (es : List EntityRecord),
      v ∈ ids es → v ∈ ids (ps.foldl (fun es p => tagSave es p.2) es) := by
  intro ps
  induction ps with
  | nil => intro es h; exact h
  | cons q ps ih =>
    intro es h
    exact ih _ (by rw [tagSave_ids]; exact h)

theorem tagFold_keeps {v : Entity} :
    ∀ (ps : List (Entity × Entity)) (es : List EntityRecord),
      (∃ r ∈ es, r.id = v ∧ r.save = true) →
      ∃ r ∈ ps.foldl (fun es p => tagSave es p.2) es, r.id = v ∧ r.save = true := by
  intro ps
  induction ps with
  | nil => intro es h; exact h
  | cons q ps ih => intro es h; exact ih _ (tagSave_keeps h)

theorem tagFold_sets {v : Entity} :
    ∀ (ps : List (Entity × Entity)) (es : List EntityRecord),
      v ∈ ids es → (∃ p ∈ ps, p.2 = v) →
      ∃ r ∈ ps.foldl (fun es p => tagSave es p.2) es, r.id = v ∧ r.save = true := by
  intro ps
  induction ps with
  | nil =>
    intro es _ h
    obtain ⟨p, hp, _⟩ := h
    cases hp
  | cons q ps ih =>
    intro es hv hp
    obtain ⟨p, hpmem, hpv⟩ := hp
    rcases List.mem_cons.mp hpmem with rfl | hpmem
    · subst hpv
      exact tagFold_keeps ps _ (tagSave_sets hv)
    · exact ih _ (by rw [tagSave_ids]; exact hv) ⟨p, hpmem, hpv⟩

theorem find_assoc {β : Type} {m : List (Nat × β)}
    (hnd : (m.map (·.1)).Nodup) {k : Nat} {v : β} (h : (k, v) ∈ m) :
    m.find? (fun p => p.1 = k) = some (k, v) := by
  induction m with
  | nil => cases h
  | cons q m ih =>
    rcases List.mem_cons.mp h with rfl | hmem
    · simp [List.find?_cons]
    · have hq : q.1 ≠ k := by
        intro hk
        have : k ∈ m.map (·.1) := List.mem_map.mpr ⟨(k, v), hmem, rfl⟩
        rw [← hk] at this
        exact (List.nodup_cons.mp hnd).1 this
      rw [List.find?_cons]
      simp only [hq, decide_False]
      exact ih (List.nodup_cons.mp hnd).2 hmem

theorem ids_map_of_id_eq {es : List EntityRecord} {f : EntityRecord → EntityRecord}
    (hf : ∀ r, (f r).id = r.id) : ids (es.map f) = ids es := by
  simp only [ids, List.map_map]
  apply List.map_congr_left
  intro r _
  exact hf r

theorem ids_map_update {es : List EntityRecord} {t : Entity}
    {g : EntityRecord → List Component} :
    ids (es.map fun r => if r.id = t then { r with components := g r } else r)
      = ids es :=
  ids_map_of_id_eq (fun r => by by_cases h : r.id = t <;> simp [h])

theorem mem_of_mem_map_update {es : List EntityRecord} {t : Entity}
    {g : EntityRecord → List Component} {r' : EntityRecord}
    (h : r' ∈ es.map fun r =>
      if r.id = t then { r with components := g r } else r) :
    ∃ r ∈ es, r'.id = r.id := by
  obtain ⟨r, hr, hf⟩ := List.mem_map.mp h
  refine ⟨r, hr, ?_⟩
  rw [← hf]
  by_cases h' : r.id = t <;> simp [h']

theorem write_to_world_props :
    ∀ (ss : List SceneEntity) (es : List EntityRecord) (next : Nat)
      (emap : List (Entity × Entity)),
      next ≤ (write_to_world es next emap ss).2.1
    ∧ (∀ x, x ∈ ids es → x ∈ ids (write_to_world es next emap ss).1)
    ∧ (∀ r' ∈ (write_to_world es next emap ss).1,
        (∃ r ∈ es, r'.id = r.id) ∨
        (next ≤ r'.id.index ∧ r'.id.generation = 0))
    ∧ (∀ p ∈ (write_to_world es next emap ss).2.2.1,
        p ∈ emap ∨
        (p.1.generation = 0 ∧ p.2.generation = 0 ∧ next ≤ p.2.index ∧
          p.2 ∈ ids (write_to_world es next emap ss).1)) := by
  intro ss
  induction ss with
  | nil =>
    intro es next emap
    exact ⟨le_rfl, fun x h => h, fun r' h => Or.inl ⟨r', h, rfl⟩,
      fun p h => Or.inl h⟩
  | cons se rest ih =>
    intro es next emap
    simp only [write_to_world]
    split
    · -- the scene entity is already mapped: components are written onto
      -- the mapped entity, which preserves all identities
      split
      · obtain ⟨h1, h2, h3, h4⟩ := ih _ next emap
        refine ⟨h1, fun x hx => h2 x ?_, fun r' hr' => ?_, fun q hq => ?_⟩
        · rw [ids_map_update]; exact hx
        · rcases h3 r' hr' with ⟨r₁, hr₁, hid⟩ | hfresh
          · obtain ⟨r₀, hr₀, hid₀⟩ := mem_of_mem_map_update hr₁
            exact Or.inl ⟨r₀, hr₀, hid.trans hid₀⟩
          · exact Or.inr hfresh
        · exact h4 q hq
      · refine ⟨le_rfl, fun x hx => ?_, fun r' hr' => ?_, fun q hq => Or.inl hq⟩
        · rw [ids_map_update]; exact hx
        · exact Or.inl (mem_of_mem_map_update hr')
    · -- fresh scene entity: a new record is spawned at index `next`
      split
      · obtain ⟨h1, h2, h3, h4⟩ := ih _ (next + 1) _
        refine ⟨Nat.le_trans (Nat.le_succ _) h1, fun x hx => h2 x ?_,
          fun r' hr' => ?_, fun q hq => ?_⟩
        · simp only [ids, List.map_append]
          exact List.mem_append_left _ hx
        · rcases h3 r' hr' with ⟨r₁, hr₁, hid⟩ | hfresh
          · rcases List.mem_append.mp hr₁ with hr₁ | hr₁
            · exact Or.inl ⟨r₁, hr₁, hid⟩
            · have he : r₁ = ⟨⟨next, 0⟩, false, false, none,
                  se.components.takeWhile (·.registered)⟩ := by
                simpa using hr₁
              rw [he] at hid
              exact Or.inr ⟨by rw [hid], by rw [hid]⟩
          · exact Or.inr ⟨Nat.le_trans (Nat.le_succ _) hfresh.1, hfresh.2⟩
        · rcases h4 q hq with hq' | hfresh
          · rcases List.mem_append.mp hq' with hq' | hq'
            · exact Or.inl hq'
            · have hqe : q = (⟨se.oldIndex, 0⟩, (⟨next, 0⟩ : Entity)) := by
                simpa using hq'
              refine Or.inr ⟨by rw [hqe], by rw [hqe], by rw [hqe], ?_⟩
              rw [hqe]
              refine h2 _ ?_
              simp [ids]
          · exact Or.inr ⟨hfresh.1, hfresh.2.1,
              Nat.le_trans (Nat.le_succ _) hfresh.2.2.1, hfresh.2.2.2⟩
      · refine ⟨Nat.le_succ _, fun x hx => ?_, fun r' hr' => ?_, fun q hq => ?_⟩
        · simp only [ids, List.map_append]
          exact List.mem_append_left _ hx
        · rcases List.mem_append.mp hr' with hr' | hr'
          · exact Or.inl ⟨r', hr', rfl⟩
          · have he : r' = ⟨⟨next, 0⟩, false, false, none,
                se.components.takeWhile (·.registered)⟩ := by
              simpa using hr'
            exact Or.inr ⟨by rw [he], by rw [he]⟩
        · rcases List.mem_append.mp hq with hq | hq
          · exact Or.inl hq
          · have hqe : q = (⟨se.oldIndex, 0⟩, (⟨next, 0⟩ : Entity)) := by
              simpa using hq
            refine Or.inr ⟨by rw [hqe], by rw [hqe], by rw [hqe], ?_⟩
            rw [hqe]
            simp [ids]

theorem tagFold_ids_eq :
    ∀ (ps : List (Entity × Entity)) (es : List EntityRecord),
      ids (ps.foldl (fun es p => tagSave es p.2) es) = ids es := by
  intro ps
  induction ps with
  | nil => intro es; rfl
  | cons q ps ih => intro es; rw [List.foldl_cons, ih, tagSave_ids]

theorem write_keys_nodup :
    ∀ (ss : List SceneEntity) (es : List EntityRecord) (next : Nat)
      (emap : List (Entity × Entity)),
      (emap.map (·.1)).Nodup →
      (((write_to_world es next emap ss).2.2.1).map (·.1)).Nodup := by
  intro ss
  induction ss with
  | nil => intro es next emap h; exact h
  | cons se rest ih =>
    intro es next emap h
    simp only [write_to_world]
    split
    · split
      · exact ih _ _ _ h
      · exact h
    · rename_i hf
      have hnotin : (⟨se.oldIndex, 0⟩ : Entity) ∉ emap.map (·.1) := by
        intro hc
        obtain ⟨p, hp, hpk⟩ := List.mem_map.mp hc
        have hnp := List.find?_eq_none.mp hf p hp
        simp [hpk] at hnp
      have h' : ((emap ++
          [((⟨se.oldIndex, 0⟩ : Entity), (⟨next, 0⟩ : Entity))]).map (·.1)).Nodup := by
        rw [List.map_append]
        exact ((List.perm_append_singleton _ _).nodup_iff).mpr
          (List.nodup_cons.mpr ⟨hnotin, h⟩)
      split
      · exact ih _ _ _ h'
      · exact h'

theorem write_success_keys :
    ∀ (ss : List SceneEntity) (es : List EntityRecord) (next : Nat)
      (emap : List (Entity × Entity)),
      (∀ se ∈ ss, se.components.all (·.registered) = true) →
      ((ss.map fun se => (⟨se.oldIndex, 0⟩ : Entity)).Nodup) →
      (∀ se ∈ ss, (⟨se.oldIndex, 0⟩ : Entity) ∉ emap.map (·.1)) →
      ((write_to_world es next emap ss).2.2.1).map (·.1)
          = emap.map (·.1) ++ ss.map (fun se => ⟨se.oldIndex, 0⟩)
    ∧ (write_to_world es next emap ss).2.2.2 = true := by
  intro ss
  induction ss with
  | nil =>
    intro es next emap _ _ _
    exact ⟨by simp [write_to_world], by simp [write_to_world]⟩
  | cons se rest ih =>
    intro es next emap hall hnd hdis
    simp only [write_to_world]
    split
    · rename_i p hf
      exfalso
      have hpm : p ∈ emap := List.mem_of_find?_eq_some hf
      have hpk : p.1 = (⟨se.oldIndex, 0⟩ : Entity) := by
        simpa using List.find?_some hf
      exact hdis se (List.mem_cons_self _ _) (List.mem_map.mpr ⟨p, hpm, hpk⟩)
    · split
      · have hdis' : ∀ se' ∈ rest, (⟨se'.oldIndex, 0⟩ : Entity) ∉
            ((emap ++ [((⟨se.oldIndex, 0⟩ : Entity),
              (⟨next, 0⟩ : Entity))]).map (·.1)) := by
          intro se' hse'
          rw [List.map_append]
          intro hc
          rcases List.mem_append.mp hc with hc | hc
          · exact hdis se' (List.mem_cons_of_mem _ hse') hc
          · have hce : (⟨se'.oldIndex, 0⟩ : Entity) = ⟨se.oldIndex, 0⟩ := by
              simpa using hc
            refine (List.nodup_cons.mp hnd).1 ?_
            refine List.mem_map.mpr ⟨se', hse', ?_⟩
            exact hce
        obtain ⟨hkeys, hok⟩ := ih
          (es ++ [⟨⟨next, 0⟩, false, false, none,
            se.components.takeWhile (·.registered)⟩])
          (next + 1)
          (emap ++ [((⟨se.oldIndex, 0⟩ : Entity), (⟨next, 0⟩ : Entity))])
          (fun se' hse' => hall se' (List.mem_cons_of_mem _ hse'))
          ((List.nodup_cons.mp hnd).2)
          hdis'
        refine ⟨?_, hok⟩
        rw [hkeys, List.map_append]
        simp
      · rename_i hok
        exact absurd (hall se (List.mem_cons_self _ _)) hok

theorem alive_true_iff {es : List EntityRecord} {x : Entity} :
    alive es x = true ↔ ∃ r ∈ es, r.id = x := by
  simp [alive, List.any_eq_true]

theorem entity_eq_of_index {x y : Entity} (hg1 : x.generation = 0)
    (hg2 : y.generation = 0) (h : x.index = y.index) : x = y := by
  cases x
  cases y
  simp_all

/-- After `load_world`, no entity that was marked `Save`/`Unload` before the
load is alive, whether or not the scene write succeeded. -/
theorem load_world_marked_gone (w : World) (hwf : w.WF) (scene : DynamicScene)
    {r : EntityRecord} (hr : r ∈ w.entities) (hm : markedB r = true) :
    alive (load_world w scene).entities r.id = false := by
  have h0 : alive (unload_world w.entities) r.id = false :=
    alive_unload_eq_false hwf.1 (doomed_of_marked hr hm)
  have hprops := write_to_world_props scene.entities (unload_world w.entities)
    w.nextFree []
  have h1 : alive (write_to_world (unload_world w.entities) w.nextFree []
      scene.entities).1 r.id = false := by
    rw [Bool.eq_false_iff]
    intro h
    rw [alive_true_iff] at h
    obtain ⟨r', hr', hid⟩ := h
    rcases hprops.2.2.1 r' hr' with ⟨r₁, hr₁, hid₁⟩ | hfresh
    · have halive : alive (unload_world w.entities) r.id = true :=
        alive_true_iff.mpr ⟨r₁, hr₁, hid₁.symm.trans hid⟩
      rw [h0] at halive
      exact Bool.false_ne_true halive
    · have hlt := hwf.2 r hr
      rw [hid] at hfresh
      omega
  have h2 : alive ((write_to_world (unload_world w.entities) w.nextFree []
        scene.entities).2.2.1.foldl (fun es p => tagSave es p.2)
      (write_to_world (unload_world w.entities) w.nextFree []
        scene.entities).1) r.id = false := by
    rw [alive_eq_ids, tagFold_ids_eq, ← alive_eq_ids]
    exact h1
  simpa [load_world] using h2

theorem load_world_loaded_eq (w : World) (scene : DynamicScene) :
    (load_world w scene).loaded
      = some ⟨((write_to_world (unload_world w.entities) w.nextFree []
          scene.entities).2.2.1).map (fun p => (p.1.index, p.2))⟩ := by
  simp [load_world]

theorem loaded_keys_nodup (w : World) (scene : DynamicScene) :
    ((((write_to_world (unload_world w.entities) w.nextFree []
        scene.entities).2.2.1).map (fun p => (p.1.index, p.2))).map (·.1)).Nodup := by
  have hk := write_keys_nodup scene.entities (unload_world w.entities)
    w.nextFree [] (by simp)
  have hprops := write_to_world_props scene.entities (unload_world w.entities)
    w.nextFree []
  have hg : ∀ p ∈ (write_to_world (unload_world w.entities) w.nextFree []
      scene.entities).2.2.1, p.1.generation = 0 := by
    intro p hp
    rcases hprops.2.2.2 p hp with hin | hfresh
    · cases hin
    · exact hfresh.1
  have hmain : ((((write_to_world (unload_world w.entities) w.nextFree []
      scene.entities).2.2.1).map (·.1)).map (·.index)).Nodup := by
    refine List.Nodup.map_on ?_ hk
    intro x hx y hy hxy
    obtain ⟨p, hp, rfl⟩ := List.mem_map.mp hx
    obtain ⟨q, hq, rfl⟩ := List.mem_map.mp hy
    exact entity_eq_of_index (hg p hp) (hg q hq) hxy
  rw [List.map_map]
  rw [List.map_map] at hmain
  exact hmain

theorem loaded_lookup_of_mem {w : World} {scene : DynamicScene} {m : Loaded}
    (hm : (load_world w scene).loaded = some m) {k : Nat} {v : Entity}
    (hkv : (k, v) ∈ m.map) (g : Nat) :
    m.entity ⟨k, g⟩ = some v := by
  have hme : m = ⟨((write_to_world (unload_world w.entities) w.nextFree []
      scene.entities).2.2.1).map (fun p => (p.1.index, p.2))⟩ := by
    have h := load_world_loaded_eq w scene
    rw [hm] at h
    exact Option.some.injEq _ _ ▸ h.symm ▸ rfl
  subst hme
  show ((((write_to_world (unload_world w.entities) w.nextFree []
      scene.entities).2.2.1).map (fun p => (p.1.index, p.2))).find?
        (fun p => p.1 = k)).map (·.2) = some v
  rw [find_assoc (loaded_keys_nodup w scene) hkv]
  rfl

/-! ## Proof layer: the save executor and the fix-up system -/

theorem find_id_self {es : List EntityRecord} (hnd : (ids es).Nodup)
    {r : EntityRecord} (hr : r ∈ es) :
    es.find? (fun s => s.id = r.id) = some r := by
  have hsome : (es.find? (fun s => decide (s.id = r.id))).isSome :=
    List.find?_isSome.mpr ⟨r, hr, by simp⟩
  cases hf : es.find? (fun s => decide (s.id = r.id)) with
  | none => rw [hf] at hsome; simp at hsome
  | some r₁ =>
    have h1 : r₁ ∈ es := List.mem_of_find?_eq_some hf
    have h2 : r₁.id = r.id := by simpa using List.find?_some hf
    rw [nodup_inj hnd h1 hr h2]

theorem save_world_eq_aux {w : World} (hnd : (ids w.entities).Nodup) :
    ∀ (rs : List EntityRecord), (∀ r ∈ rs, r ∈ w.entities) →
      (rs.map (·.id)).filterMap (fun e =>
        (w.entities.find? (fun r => r.id = e)).map (fun r =>
          (⟨r.id.index, r.components.filter (·.registered)⟩ : SceneEntity)))
      = rs.map (fun r => ⟨r.id.index, r.components.filter (·.registered)⟩) := by
  intro rs
  induction rs with
  | nil => intro _; rfl
  | cons r rs ih =>
    intro hsub
    have hfind := find_id_self hnd (hsub r (List.mem_cons_self _ _))
    simp only [List.map_cons, List.filterMap_cons, hfind, Option.map_some']
    rw [ih (fun r' hr' => hsub r' (List.mem_cons_of_mem _ hr'))]

/-- `save_world` on a set of live entity identities extracts exactly those
records, each with exactly its registered components. -/
theorem save_world_eq {w : World} (hnd : (ids w.entities).Nodup)
    {rs : List EntityRecord} (hsub : ∀ r ∈ rs, r ∈ w.entities) :
    save_world w (rs.map (·.id))
      = ⟨rs.map (fun r => ⟨r.id.index, r.components.filter (·.registered)⟩)⟩ := by
  unfold save_world
  exact congrArg DynamicScene.mk (save_world_eq_aux hnd rs hsub)

/-- Unfolding of the `save` system on a pending save request. -/
theorem save_eq (w : World) (path : String) (mode : SaveMode) (io : SaveIo)
    (hreq : w.request = some (.SaveReq path mode)) :
    save w io = ({ w with request := none },
      match io with
      | .ok => .written (save_world { w with request := none }
          (selectEntities w.entities mode))
      | .serializeError => .loggedError "serialization failed"
      | .createError => .loggedError "file creation failed"
      | .writeError => .loggedError "save failed") := by
  obtain ⟨es, nf, req, ld⟩ := w
  change req = some (Request.SaveReq path mode) at hreq
  subst hreq
  cases io <;> rfl

theorem run_none_of_mem {l : Loaded} {e : Entity} :
    ∀ (refs : List Entity), e ∈ refs → l.entity e = none →
      register_loaded_run l refs = none := by
  intro refs
  induction refs with
  | nil => intro he; cases he
  | cons a t ih =>
    intro he hnone
    rcases List.mem_cons.mp he with rfl | he'
    · simp [register_loaded_run, Entity.from_loaded, hnone]
    · simp only [register_loaded_run]
      cases ha : a.from_loaded l with
      | none => rfl
      | some b => rw [ih he' hnone]

theorem run_some_of_all {l : Loaded} :
    ∀ (refs : List Entity), (∀ e ∈ refs, (l.entity e).isSome = true) →
      ∃ out, register_loaded_run l refs = some out ∧
        List.Forall₂ (fun e n => l.entity e = some n) refs out := by
  intro refs
  induction refs with
  | nil => intro _; exact ⟨[], rfl, List.Forall₂.nil⟩
  | cons a t ih =>
    intro hall
    have ha := hall a (List.mem_cons_self _ _)
    cases hae : l.entity a with
    | none => rw [hae] at ha; simp at ha
    | some n =>
      obtain ⟨out, hout, hf⟩ := ih (fun e he => hall e (List.mem_cons_of_mem _ he))
      refine ⟨n :: out, ?_, List.Forall₂.cons hae hf⟩
      simp [register_loaded_run, Entity.from_loaded, hae, hout]

/-! ## One tick of the schedule

Per `buildStages`, within one tick the `SaveStage::Load` stage (run
criteria `should_load`) runs first, then `SaveStage::PostLoad` (run
criteria `should_load`; contains `finish_load` and registered fix-up
systems), then the core stages, then `SaveStage::Save` (run criteria
`should_save`). -/
def runTick (w : World) (rd : ReadOutcome) (io : SaveIo) : World :=
  let w1 := if shouldLoad w then load w rd else w
  let w2 := if shouldLoad w1 then finish_load w1 else w1
  let w3 := if shouldSave w2 then (save w2 io).1 else w2
  w3

/-! ## Claims -/

/-- C1, counterexample.  The spec claims that when reading or parsing of
the file fails, the store is already unloaded (every `Save`/`Unload`-marked
entity despawned).  In the code, `load` opens, reads and parses the file
before calling `load_world` (which is what performs the unload), so a parse
failure leaves the store completely untouched: here a store holding one
`Save`-marked entity is returned unchanged by the load system and the
marked entity is still alive. -/
theorem C1_counterexample :
    load ⟨[⟨⟨0, 0⟩, true, false, none, []⟩], 1,
        some (.LoadReq "save.ron"), none⟩ .parseError
      = ⟨[⟨⟨0, 0⟩, true, false, none, []⟩], 1,
        some (.LoadReq "save.ron"), none⟩
  ∧ alive (load ⟨[⟨⟨0, 0⟩, true, false, none, []⟩], 1,
      some (.LoadReq "save.ron"), none⟩ .parseError).entities ⟨0, 0⟩ = true := by
  decide

/-- C1, amended.  During a Load the phases occur in the order Reading →
Unloading → Applying: when opening, reading or parsing the file at `path`
fails, the load aborts with a logged error and the store is left completely
untouched (no entity is despawned); only when parsing succeeds does the
unload happen, after which every entity marked `Save` (Persist) or `Unload`
is despawned before the snapshot is applied. -/
theorem C1_load_reads_before_unloading (w : World) (hwf : w.WF)
    (path : String) (hreq : w.request = some (.LoadReq path)) :
    load w .openError = w
  ∧ load w .parseError = w
  ∧ ∀ scene : DynamicScene, ∀ r ∈ w.entities, markedB r = true →
      alive (load w (.parsed scene)).entities r.id = false := by
  have hop : load w ReadOutcome.openError = w := by
    unfold load
    rw [hreq]
  have hpe : load w ReadOutcome.parseError = w := by
    unfold load
    rw [hreq]
  refine ⟨hop, hpe, ?_⟩
  intro scene r hr hm
  have he : load w (.parsed scene) = load_world w scene := by
    unfold load
    rw [hreq]
  rw [he]
  exact load_world_marked_gone w hwf scene hr hm

theorem C1_load_reads_before_unloading_witness :
    load ⟨[⟨⟨0, 0⟩, true, false, none, []⟩], 1,
        some (.LoadReq "save.ron"), none⟩ .openError
      = ⟨[⟨⟨0, 0⟩, true, false, none, []⟩], 1,
        some (.LoadReq "save.ron"), none⟩
  ∧ alive (load ⟨[⟨⟨0, 0⟩, true, false, none, []⟩], 1,
      some (.LoadReq "save.ron"), none⟩ (.parsed ⟨[]⟩)).entities ⟨0, 0⟩
      = false := by
  have h := C1_load_reads_before_unloading
    ⟨[⟨⟨0, 0⟩, true, false, none, []⟩], 1, some (.LoadReq "save.ron"), none⟩
    (by decide) "save.ron" (by decide)
  exact ⟨h.1, h.2.2 ⟨[]⟩ ⟨⟨0, 0⟩, true, false, none, []⟩ (by decide) (by decide)⟩

/-- C2.  `SavePlugin::build` produces the stage order First, Load,
PostLoad, PreUpdate, Update, PostUpdate, Last, Save.  The Save stage runs
after every core stage and PostLoad immediately follows Load, as claimed;
but `CoreStage::First` precedes `SaveStage::Load`, so per-tick logic
scheduled in the First stage runs before the Load phase of the same tick.
This contradicts the claim that the Load phase runs strictly before any
ordinary per-tick logic — and contradicts the code's own doc comment
(`lib.rs`, `SaveStage::Load`: "The Stage before `CoreStage::First`"),
since the plugin inserts the stage before `CoreStage::PreUpdate` instead. -/
theorem C2_stage_order :
    buildStages = [.coreFirst, .stageLoad, .stagePostLoad, .corePreUpdate,
      .coreUpdate, .corePostUpdate, .coreLast, .stageSave]
  ∧ buildStages.indexOf .coreFirst < buildStages.indexOf .stageLoad
  ∧ buildStages.indexOf .stageLoad + 1 = buildStages.indexOf .stagePostLoad
  ∧ (∀ c ∈ coreStages, buildStages.indexOf c < buildStages.indexOf .stageSave)
  ∧ buildStages.indexOf .stageLoad < buildStages.indexOf .corePreUpdate := by
  decide

/-- The records selected by the `save` system: in `Filtered` mode exactly
the entities carrying the `Save` marker, in `Dump` mode all entities. -/
def selectedRecords (es : List EntityRecord) : SaveMode → List EntityRecord
  | .Filtered => es.filter (·.save)
  | .Dump => es

theorem selectEntities_eq (es : List EntityRecord) (mode : SaveMode) :
    selectEntities es mode = (selectedRecords es mode).map (·.id) := by
  cases mode <;> rfl

/-- C3.  When the Save phase processes a save request, the extracted
snapshot contains exactly the selected entities — in `Filtered` mode
exactly those carrying the `Save` marker, in `Dump` mode all entities —
and, for each, exactly its registered (serializable) components;
extraction itself has no side effect on the store: the entity records
after the save phase are exactly those before it. -/
theorem C3_save_extracts_exactly (w : World) (path : String)
    (mode : SaveMode) (io : SaveIo) (hnd : (ids w.entities).Nodup)
    (hreq : w.request = some (.SaveReq path mode)) :
    (save w io).1.entities = w.entities
  ∧ (io = .ok → (save w io).2 = .written
      ⟨(selectedRecords w.entities mode).map
        (fun r => ⟨r.id.index, r.components.filter (·.registered)⟩)⟩) := by
  have he := save_eq w path mode io hreq
  refine ⟨by rw [he], ?_⟩
  intro hio
  subst hio
  rw [he]
  show SaveOutcome.written
      (save_world { w with request := none } (selectEntities w.entities mode)) = _
  have hsub : ∀ r ∈ selectedRecords w.entities mode, r ∈ w.entities := by
    cases mode with
    | Filtered => exact fun r hr => (List.mem_filter.mp hr).1
    | Dump => exact fun r hr => hr
  rw [selectEntities_eq,
    save_world_eq (w := { w with request := none }) hnd hsub]

theorem C3_save_extracts_exactly_witness :
    (save ⟨[⟨⟨1, 0⟩, true, false, none,
        [⟨"Pos", true, 10⟩, ⟨"Vis", false, 7⟩]⟩,
      ⟨⟨2, 0⟩, false, false, none, [⟨"Pos", true, 30⟩]⟩], 3,
      some (.SaveReq "f.ron" .Filtered), none⟩ .ok).1.entities
      = [⟨⟨1, 0⟩, true, false, none, [⟨"Pos", true, 10⟩, ⟨"Vis", false, 7⟩]⟩,
         ⟨⟨2, 0⟩, false, false, none, [⟨"Pos", true, 30⟩]⟩]
  ∧ (save ⟨[⟨⟨1, 0⟩, true, false, none,
        [⟨"Pos", true, 10⟩, ⟨"Vis", false, 7⟩]⟩,
      ⟨⟨2, 0⟩, false, false, none, [⟨"Pos", true, 30⟩]⟩], 3,
      some (.SaveReq "f.ron" .Filtered), none⟩ .ok).2
      = .written ⟨[⟨1, [⟨"Pos", true, 10⟩]⟩]⟩ := by
  have h := C3_save_extracts_exactly
    ⟨[⟨⟨1, 0⟩, true, false, none, [⟨"Pos", true, 10⟩, ⟨"Vis", false, 7⟩]⟩,
      ⟨⟨2, 0⟩, false, false, none, [⟨"Pos", true, 30⟩]⟩], 3,
      some (.SaveReq "f.ron" .Filtered), none⟩
    "f.ron" .Filtered .ok (by decide) (by decide)
  exact ⟨h.1, (h.2 rfl).trans (by decide)⟩

/-- C4.  During the Unloading step every entity carrying the `Save`
(Persist) or `Unload` marker is despawned, together with all of its
descendants regardless of the descendants' own markers; every entity with
neither marker that is not a descendant of a marked entity is untouched
(its record survives unchanged in the store); and a despawn attempt on an
entity already removed as a descendant of an ancestor is a no-op, not an
error. -/
theorem C4_unload_completeness (es : List EntityRecord)
    (hnd : (ids es).Nodup) :
    (∀ r ∈ es, markedB r = true → alive (unload_world es) r.id = false)
  ∧ (∀ r ∈ es, ∀ m ∈ es, markedB m = true → isDesc es r.id m.id = true →
      alive (unload_world es) r.id = false)
  ∧ (∀ r ∈ es, doomed es r.id = false → r ∈ unload_world es)
  ∧ (∀ (cur : List EntityRecord) (e : Entity), alive cur e = false →
      unloadStep cur e = cur) := by
  refine ⟨?_, ?_, ?_, ?_⟩
  · intro r hr hm
    exact alive_unload_eq_false hnd (doomed_of_marked hr hm)
  · intro r hr m hm hmk hd
    exact alive_unload_eq_false hnd (doomed_of_desc hm hmk hd)
  · intro r hr hd
    exact not_doomed_mem_unload hnd hr hd
  · intro cur e h
    simp [unloadStep, h]

theorem C4_unload_completeness_witness :
    alive (unload_world [⟨⟨1, 0⟩, true, false, none, []⟩,
      ⟨⟨2, 0⟩, false, false, some ⟨1, 0⟩, []⟩,
      ⟨⟨3, 0⟩, false, false, some ⟨2, 0⟩, []⟩,
      ⟨⟨4, 0⟩, false, false, none, []⟩,
      ⟨⟨5, 0⟩, false, true, some ⟨4, 0⟩, []⟩]) ⟨1, 0⟩ = false
  ∧ alive (unload_world [⟨⟨1, 0⟩, true, false, none, []⟩,
      ⟨⟨2, 0⟩, false, false, some ⟨1, 0⟩, []⟩,
      ⟨⟨3, 0⟩, false, false, some ⟨2, 0⟩, []⟩,
      ⟨⟨4, 0⟩, false, false, none, []⟩,
      ⟨⟨5, 0⟩, false, true, some ⟨4, 0⟩, []⟩]) ⟨3, 0⟩ = false
  ∧ (⟨⟨4, 0⟩, false, false, none, []⟩ : EntityRecord) ∈
      unload_world [⟨⟨1, 0⟩, true, false, none, []⟩,
        ⟨⟨2, 0⟩, false, false, some ⟨1, 0⟩, []⟩,
        ⟨⟨3, 0⟩, false, false, some ⟨2, 0⟩, []⟩,
        ⟨⟨4, 0⟩, false, false, none, []⟩,
        ⟨⟨5, 0⟩, false, true, some ⟨4, 0⟩, []⟩]
  ∧ unloadStep [⟨⟨4, 0⟩, false, false, none, []⟩] ⟨9, 9⟩
      = [⟨⟨4, 0⟩, false, false, none, []⟩] := by
  have h := C4_unload_completeness
    [⟨⟨1, 0⟩, true, false, none, []⟩,
     ⟨⟨2, 0⟩, false, false, some ⟨1, 0⟩, []⟩,
     ⟨⟨3, 0⟩, false, false, some ⟨2, 0⟩, []⟩,
     ⟨⟨4, 0⟩, false, false, none, []⟩,
     ⟨⟨5, 0⟩, false, true, some ⟨4, 0⟩, []⟩] (by decide)
  exact ⟨h.1 ⟨⟨1, 0⟩, true, false, none, []⟩ (by decide) (by decide),
    h.2.1 ⟨⟨3, 0⟩, false, false, some ⟨2, 0⟩, []⟩ (by decide)
      ⟨⟨1, 0⟩, true, false, none, []⟩ (by decide) (by decide) (by decide),
    h.2.2.1 ⟨⟨4, 0⟩, false, false, none, []⟩ (by decide) (by decide),
    h.2.2.2 [⟨⟨4, 0⟩, false, false, none, []⟩] ⟨9, 9⟩ (by decide)⟩

/-- C5, counterexample.  The spec claims each entity restored during
Applying is "additionally tagged `Persist` (Save) and `Restored(old-index)`".
The crate defines no `Restored` component and `load_world` inserts only the
`Save` marker; the old index is recorded solely in the `Loaded` resource.
Concretely: loading a snapshot holding old index 7 with no components into
an empty store yields a single record carrying the `Save` marker and an
empty component list — no per-entity component records the old index 7,
which appears only in the `Loaded` map. -/
theorem C5_counterexample :
    (load_world ⟨[], 0, some (.LoadReq "f.ron"), none⟩ ⟨[⟨7, []⟩]⟩).entities
        = [⟨⟨0, 0⟩, true, false, none, []⟩]
  ∧ (load_world ⟨[], 0, some (.LoadReq "f.ron"), none⟩ ⟨[⟨7, []⟩]⟩).loaded
        = some ⟨[(7, ⟨0, 0⟩)]⟩ := by
  decide

/-- C5, amended.  During Applying, every (old-index, components) tuple of
the snapshot is inserted as a new entity under a freshly allocated
identity (distinct from every identity of the pre-load store), each new
entity is additionally tagged `Save` (Persist), and the old-index →
new-entity mapping of the freshly inserted `Loaded` resource contains
exactly one entry per entity of the just-applied snapshot, with no stale
entries surviving from a previous load.  The old index is recorded in the
`Loaded` resource, not in a per-entity `Restored` component. -/
theorem C5_applying_spec (w : World) (hwf : w.WF) (scene : DynamicScene)
    (hnd : (scene.entities.map (·.oldIndex)).Nodup)
    (hreg : ∀ se ∈ scene.entities, se.components.all (·.registered) = true) :
    ∃ m : Loaded, (load_world w scene).loaded = some m
  ∧ m.map.map (·.1) = scene.entities.map (·.oldIndex)
  ∧ ∀ pr ∈ m.map, (∀ r ∈ w.entities, r.id ≠ pr.2)
      ∧ ∃ r' ∈ (load_world w scene).entities, r'.id = pr.2 ∧ r'.save = true := by
  refine ⟨_, load_world_loaded_eq w scene, ?_, ?_⟩
  · have hndE : (scene.entities.map
        (fun se => (⟨se.oldIndex, 0⟩ : Entity))).Nodup := by
      have hinj : Function.Injective (fun i => (⟨i, 0⟩ : Entity)) := by
        intro a b hab
        simpa using hab
      have h2 := hnd.map hinj
      rw [List.map_map] at h2
      exact h2
    have hk1 : ((write_to_world (unload_world w.entities) w.nextFree []
        scene.entities).2.2.1).map (·.1)
          = scene.entities.map (fun se => ⟨se.oldIndex, 0⟩) := by
      have h := (write_success_keys scene.entities (unload_world w.entities)
        w.nextFree [] hreg hndE (by simp)).1
      simpa using h
    calc (((write_to_world (unload_world w.entities) w.nextFree []
          scene.entities).2.2.1).map (fun p => (p.1.index, p.2))).map (·.1)
        = (((write_to_world (unload_world w.entities) w.nextFree []
            scene.entities).2.2.1).map (·.1)).map (·.index) := by
          rw [List.map_map, List.map_map]
          rfl
      _ = (scene.entities.map
            (fun se => (⟨se.oldIndex, 0⟩ : Entity))).map (·.index) := by
          rw [hk1]
      _ = scene.entities.map (·.oldIndex) := by
          rw [List.map_map]
          rfl
  · intro pr hpr
    obtain ⟨p, hp, rfl⟩ := List.mem_map.mp hpr
    have hD := (write_to_world_props scene.entities (unload_world w.entities)
      w.nextFree []).2.2.2 p hp
    rcases hD with hin | hfresh
    · cases hin
    constructor
    · intro r hr hcontra
      have hlt := hwf.2 r hr
      rw [hcontra] at hlt
      have := hfresh.2.2.1
      simp only at hlt
      omega
    · have hexists : ∃ q ∈ (write_to_world (unload_world w.entities)
          w.nextFree [] scene.entities).2.2.1, q.2 = p.2 := ⟨p, hp, rfl⟩
      have htag := tagFold_sets _ _ hfresh.2.2.2 hexists
      have hE : (load_world w scene).entities
          = ((write_to_world (unload_world w.entities) w.nextFree []
              scene.entities).2.2.1).foldl (fun es p => tagSave es p.2)
            (write_to_world (unload_world w.entities) w.nextFree []
              scene.entities).1 := by
        simp [load_world]
      rw [hE]
      exact htag

theorem C5_applying_spec_witness : ∃ m : Loaded,
    (load_world ⟨[⟨⟨0, 0⟩, true, false, none, []⟩], 1,
        some (.LoadReq "f.ron"), none⟩ ⟨[⟨7, []⟩, ⟨9, []⟩]⟩).loaded = some m
  ∧ m.map.map (·.1) = [7, 9] := by
  obtain ⟨m, h1, h2, _⟩ := C5_applying_spec
    ⟨[⟨⟨0, 0⟩, true, false, none, []⟩], 1, some (.LoadReq "f.ron"), none⟩
    (by decide) ⟨[⟨7, []⟩, ⟨9, []⟩]⟩ (by decide) (by decide)
  exact ⟨m, h1, h2.trans (by decide)⟩

/-- C6.  During Post-Load reference fix-up, an old `Entity` reference whose
index has no entry in the `Loaded` mapping makes the fix-up system panic
(`.expect("loaded entity is not valid")`, modelled as `none`) — a hard,
loud error rather than a silently unchanged or wrong reference; when the
index has an entry, `FromLoaded::from_loaded` replaces the reference with
the mapped new entity, and the registered fix-up system rewrites every
instance accordingly. -/
theorem C6_missing_mapping_fails_loudly (l : Loaded) (refs : List Entity) :
    ((∃ e ∈ refs, l.entity e = none) → register_loaded_run l refs = none)
  ∧ (∀ (e n : Entity), l.entity e = some n → e.from_loaded l = some n)
  ∧ ((∀ e ∈ refs, (l.entity e).isSome = true) → ∃ out,
      register_loaded_run l refs = some out ∧
      List.Forall₂ (fun e n => l.entity e = some n) refs out) := by
  refine ⟨?_, fun e n h => h, run_some_of_all refs⟩
  rintro ⟨e, he, hnone⟩
  exact run_none_of_mem refs he hnone

theorem C6_missing_mapping_fails_loudly_witness :
    register_loaded_run ⟨[(1, ⟨5, 0⟩)]⟩ [⟨2, 0⟩] = none
  ∧ Entity.from_loaded ⟨1, 7⟩ ⟨[(1, ⟨5, 0⟩)]⟩ = some ⟨5, 0⟩ := by
  have h := C6_missing_mapping_fails_loudly ⟨[(1, ⟨5, 0⟩)]⟩ [⟨2, 0⟩]
  exact ⟨h.1 ⟨⟨2, 0⟩, by decide, by decide⟩, h.2.1 ⟨1, 7⟩ ⟨5, 0⟩ (by decide)⟩

/-- C7.  The identity-mapping lookup keys only on the raw index of the old
identity, never on the full (index, generation) identity: two entities with
equal index and arbitrary generations produce the same `Loaded::entity`
result, and for the mapping built by `load_world` any stored (index, new)
pair resolves under every generation of the old identity. -/
theorem C7_lookup_keys_on_index (l : Loaded) (e₁ e₂ : Entity)
    (h : e₁.index = e₂.index) :
    l.entity e₁ = l.entity e₂
  ∧ ∀ (w : World) (scene : DynamicScene) (m : Loaded),
      (load_world w scene).loaded = some m →
      ∀ (k : Nat) (v : Entity), (k, v) ∈ m.map → ∀ g : Nat,
        m.entity ⟨k, g⟩ = some v := by
  refine ⟨?_, fun w scene m hm k v hkv g => loaded_lookup_of_mem hm hkv g⟩
  unfold Loaded.entity
  rw [h]

theorem C7_lookup_keys_on_index_witness :
    Loaded.entity ⟨[(1, ⟨5, 0⟩)]⟩ ⟨1, 0⟩ = Loaded.entity ⟨[(1, ⟨5, 0⟩)]⟩ ⟨1, 99⟩
  ∧ Loaded.entity ⟨[(7, ⟨0, 0⟩)]⟩ ⟨7, 42⟩ = some ⟨0, 0⟩ := by
  have h := C7_lookup_keys_on_index ⟨[(1, ⟨5, 0⟩)]⟩ ⟨1, 0⟩ ⟨1, 99⟩ rfl
  refine ⟨h.1, ?_⟩
  exact h.2 ⟨[], 0, some (.LoadReq "f.ron"), none⟩ ⟨[⟨7, []⟩]⟩
    ⟨[(7, ⟨0, 0⟩)]⟩ (by decide) 7 ⟨0, 0⟩ (by decide) 42

/-- C8.  During the Save phase an empty extraction set is not an error: it
produces an empty-but-valid snapshot that is still written.  Serialization
failure, file-creation failure and write failure are each reported as a
logged, recoverable outcome (the system is total — no panic), and in every
one of these cases the store's entity records are left unmodified. -/
theorem C8_save_failures_recoverable (w : World) (path : String)
    (mode : SaveMode) (io : SaveIo)
    (hreq : w.request = some (.SaveReq path mode)) :
    (save w io).1.entities = w.entities
  ∧ (selectedRecords w.entities mode = [] → io = .ok →
      (save w io).2 = .written ⟨[]⟩)
  ∧ (io = .serializeError →
      (save w io).2 = .loggedError "serialization failed")
  ∧ (io = .createError → (save w io).2 = .loggedError "file creation failed")
  ∧ (io = .writeError → (save w io).2 = .loggedError "save failed") := by
  have he := save_eq w path mode io hreq
  refine ⟨by rw [he], ?_, ?_, ?_, ?_⟩
  · intro hsel hio
    subst hio
    rw [he]
    show SaveOutcome.written
        (save_world { w with request := none }
          (selectEntities w.entities mode)) = _
    rw [selectEntities_eq, hsel]
    rfl
  · intro h
    subst h
    rw [he]
  · intro h
    subst h
    rw [he]
  · intro h
    subst h
    rw [he]

theorem C8_save_failures_recoverable_witness :
    (save ⟨[⟨⟨1, 0⟩, false, false, none, []⟩], 2,
        some (.SaveReq "f.ron" .Filtered), none⟩ .ok).2 = .written ⟨[]⟩
  ∧ (save ⟨[⟨⟨1, 0⟩, false, false, none, []⟩], 2,
        some (.SaveReq "f.ron" .Filtered), none⟩ .ok).1.entities
      = [⟨⟨1, 0⟩, false, false, none, []⟩]
  ∧ (save ⟨[⟨⟨1, 0⟩, false, false, none, []⟩], 2,
        some (.SaveReq "f.ron" .Filtered), none⟩ .serializeError).2
      = .loggedError "serialization failed"
  ∧ (save ⟨[⟨⟨1, 0⟩, false, false, none, []⟩], 2,
        some (.SaveReq "f.ron" .Filtered), none⟩ .serializeError).1.entities
      = [⟨⟨1, 0⟩, false, false, none, []⟩] := by
  have h1 := C8_save_failures_recoverable
    ⟨[⟨⟨1, 0⟩, false, false, none, []⟩], 2,
      some (.SaveReq "f.ron" .Filtered), none⟩ "f.ron" .Filtered .ok (by decide)
  have h2 := C8_save_failures_recoverable
    ⟨[⟨⟨1, 0⟩, false, false, none, []⟩], 2,
      some (.SaveReq "f.ron" .Filtered), none⟩ "f.ron" .Filtered
    .serializeError (by decide)
  exact ⟨h1.2.1 (by decide) rfl, h1.1, h2.2.2.1 rfl, h2.1⟩

/-- C9.  The `Request` resource slot holds at most one request, so a save
and a load request never coexist and the Save and Load phases are mutually
exclusive within a tick (their run criteria cannot both hold); enqueuing
`save`, `dump` or `load` overwrites any pending request
(`insert_resource` semantics); and a pending request is consumed and
removed within the same tick its phase executes, whether the operation
succeeds or fails. -/
theorem C9_single_request_lifecycle (w : World) (rd : ReadOutcome)
    (io : SaveIo) :
    ¬(shouldSave w = true ∧ shouldLoad w = true)
  ∧ (∀ p p' : String,
      (SaveWorld.save (LoadWorld.load w p) p').request
          = some (.SaveReq p' .Filtered)
      ∧ (LoadWorld.load (SaveWorld.dump w p) p').request
          = some (.LoadReq p'))
  ∧ (w.request.isSome = true → (runTick w rd io).request = none) := by
  refine ⟨?_, fun p p' => ⟨rfl, rfl⟩, ?_⟩
  · rintro ⟨hs, hl⟩
    unfold shouldSave at hs
    unfold shouldLoad at hl
    cases hr : w.request with
    | none => rw [hr] at hs; cases hs
    | some r =>
      rw [hr] at hs hl
      cases r with
      | SaveReq _ _ => cases hl
      | LoadReq _ => cases hs
  · intro hsome
    cases hr : w.request with
    | none => rw [hr] at hsome; cases hsome
    | some r =>
      cases r with
      | SaveReq p m =>
        have hsl : shouldLoad w = false := by
          unfold shouldLoad
          rw [hr]
          rfl
        have hss : shouldSave w = true := by
          unfold shouldSave
          rw [hr]
          rfl
        have hfinal : (save w io).1.request = none := by
          rw [save_eq w p m io hr]
        simp [runTick, hsl, hss, hfinal]
      | LoadReq p =>
        have hsl : shouldLoad w = true := by
          unfold shouldLoad
          rw [hr]
          rfl
        have hreq1 : (load w rd).request = w.request := by
          unfold load
          rw [hr]
          cases rd with
          | openError => exact hr
          | parseError => exact hr
          | parsed scene => exact hr
        have hsl1 : shouldLoad (load w rd) = true := by
          unfold shouldLoad
          rw [hreq1, hr]
          rfl
        have hss2 : shouldSave (finish_load (load w rd)) = false := rfl
        have hfl : (finish_load (load w rd)).request = none := rfl
        simp [runTick, hsl, hsl1, hss2, hfl]

theorem C9_single_request_lifecycle_witness :
    (runTick ⟨[], 0, some (.SaveReq "f.ron" .Filtered), none⟩
        .parseError .ok).request = none
  ∧ (runTick ⟨[], 0, some (.LoadReq "f.ron"), none⟩
        .parseError .ok).request = none := by
  exact ⟨(C9_single_request_lifecycle
      ⟨[], 0, some (.SaveReq "f.ron" .Filtered), none⟩
      .parseError .ok).2.2 (by decide),
    (C9_single_request_lifecycle ⟨[], 0, some (.LoadReq "f.ron"), none⟩
      .parseError .ok).2.2 (by decide)⟩

/-- C10.  If writing the deserialized scene into the world fails during
`load_world`, the failure is only logged and execution continues: the
unload (recursive despawn of all `Save`/`Unload`-marked entities) has
already taken place and is not rolled back, and a `Loaded` mapping
resource (possibly empty or partial) is still inserted into the world, so
Post-Load fix-up systems still run against it. -/
theorem C10_load_write_failure_continues (w : World) (hwf : w.WF)
    (scene : DynamicScene)
    (_hfail : (write_to_world (unload_world w.entities) w.nextFree []
        scene.entities).2.2.2 = false) :
    ((load_world w scene).loaded).isSome = true
  ∧ ∀ r ∈ w.entities, markedB r = true →
      alive (load_world w scene).entities r.id = false := by
  refine ⟨?_, fun r hr hm => load_world_marked_gone w hwf scene hr hm⟩
  rw [load_world_loaded_eq]
  rfl

theorem C10_load_write_failure_continues_witness :
    ((load_world ⟨[⟨⟨0, 0⟩, true, false, none, []⟩], 1,
        some (.LoadReq "f.ron"), none⟩
      ⟨[⟨4, [⟨"NotRegistered", false, 1⟩]⟩]⟩).loaded).isSome = true
  ∧ alive (load_world ⟨[⟨⟨0, 0⟩, true, false, none, []⟩], 1,
        some (.LoadReq "f.ron"), none⟩
      ⟨[⟨4, [⟨"NotRegistered", false, 1⟩]⟩]⟩).entities ⟨0, 0⟩ = false := by
  have h := C10_load_write_failure_continues
    ⟨[⟨⟨0, 0⟩, true, false, none, []⟩], 1, some (.LoadReq "f.ron"), none⟩
    (by decide) ⟨[⟨4, [⟨"NotRegistered", false, 1⟩]⟩]⟩ (by decide)
  exact ⟨h.1, h.2 ⟨⟨0, 0⟩, true, false, none, []⟩ (by decide) (by decide)⟩

end BevyAtomicSave
